import Mathlib

/-!
Verification of the marketing-helper backend (`server.js`).

The definitions below are a shallow embedding of the pure computational core
of `server.js`: JavaScript strings become Lean `String`s (with trimming and
upper-casing modelled character-wise), JavaScript numbers holding epoch
timestamps become `Int`, monetary values and Math.ceil arithmetic become `ℚ`
with `Int.ceil`, and the stable `Array.prototype.sort` becomes the stable
`List.insertionSort`.  Absent / falsy fields are modelled with `Option`
(`x || d` becomes a `getD`-style default).
-/

/-- Character-wise model of JavaScript `String.prototype.trim`:
drop whitespace from both ends. -/
def jsTrim (s : String) : String :=
  ⟨((s.data.dropWhile Char.isWhitespace).reverse.dropWhile Char.isWhitespace).reverse⟩

/-- Character-wise model of JavaScript `String.prototype.toUpperCase`. -/
def jsUpper (s : String) : String :=
  ⟨s.data.map Char.toUpper⟩

/-- One `hs_latest_source` property-history entry.  `timestamp` is the value of
`Number(e.timestamp || 0)` (an absent timestamp coerces to `0`); `value` is the
raw string value (`String(e.value || "")`, absent coerces to `""`). -/
structure HistoryEntry where
  timestamp : Int
  value : String
deriving DecidableEq

/-- `const MCF_LOOKBACK_DAYS = 90` from server.js. -/
def MCF_LOOKBACK_DAYS : Int := 90

/-- The value of the JavaScript expression `lookbackDays || MCF_LOOKBACK_DAYS`:
an absent (`none`) or zero argument falls back to the constant. -/
def effectiveLookbackDays (lookbackDays : Option Int) : Int :=
  match lookbackDays with
  | none => MCF_LOOKBACK_DAYS
  | some d => if d = 0 then MCF_LOOKBACK_DAYS else d

/-- `windowStart = conversionTimestamp - lookbackMs` where
`lookbackMs = (lookbackDays || MCF_LOOKBACK_DAYS) * 24 * 60 * 60 * 1000`. -/
def windowStartOf (conversionTimestamp : Int) (lookbackDays : Option Int) : Int :=
  conversionTimestamp - effectiveLookbackDays lookbackDays * (24 * 60 * 60 * 1000)

/-- `String(e.value || "").trim().toUpperCase()` -/
def normalizeSourceValue (s : String) : String :=
  jsUpper (jsTrim s)

/-- One iteration of the collapse loop in `buildConversionPath`:
`if (collapsed.length === 0 || collapsed[collapsed.length - 1] !== step)
collapsed.push(step)`. -/
def collapseStep (collapsed : List String) (step : String) : List String :=
  if collapsed = [] ∨ collapsed.getLast? ≠ some step then collapsed ++ [step] else collapsed

/-- The collapse loop of `buildConversionPath`: scan left to right, appending a
token only when it differs from the last appended token. -/
def collapseConsecutive (rawPath : List String) : List String :=
  rawPath.foldl collapseStep []

/-- `buildConversionPath(sourceHistory, conversionTimestamp, lookbackDays)` from
server.js: filter history to the lookback window, sort ascending by timestamp
(stable), normalize values, drop empties, collapse consecutive duplicates, and
fall back to `["UNKNOWN"]` for an empty result. -/
def buildConversionPath (sourceHistory : List HistoryEntry) (conversionTimestamp : Int)
    (lookbackDays : Option Int) : List String :=
  let windowStart := windowStartOf conversionTimestamp lookbackDays
  let entries := List.insertionSort (fun a b => a.timestamp ≤ b.timestamp)
    (sourceHistory.filter fun e =>
      windowStart ≤ e.timestamp ∧ e.timestamp ≤ conversionTimestamp)
  if entries = [] then ["UNKNOWN"]
  else
    let rawPath := (entries.map fun e => normalizeSourceValue e.value).filter
      (fun s => s ≠ "")
    let collapsed := collapseConsecutive rawPath
    if collapsed = [] then ["UNKNOWN"] else collapsed

/-- `pathToKey(pathArray) = pathArray.join(">")` from server.js, with `join`
spelled out: empty array gives `""`, otherwise fold the tail onto the head with
the separator. -/
def pathToKey (pathArray : List String) : String :=
  match pathArray with
  | [] => ""
  | x :: xs => xs.foldl (fun acc s => acc ++ ">" ++ s) x

/-- Result record of `computeMarketingContribution`. -/
structure ContributionResult where
  percent : ℚ
  totalChanges : Nat
  marketingChanges : Nat
deriving DecidableEq

/-- The counting loop of `computeMarketingContribution`: for each entry, let
`newValue = String(e.value ?? "").trim()`; skip empties, count every other
entry in `totalChanges`, and also in `marketingChanges` when the marketing set
has the trimmed value. -/
def contribCounts (marketingSources : List String) (entries : List HistoryEntry) :
    Nat × Nat :=
  entries.foldl
    (fun tm e =>
      let newValue := jsTrim e.value
      if newValue = "" then tm
      else (tm.1 + 1, if newValue ∈ marketingSources then tm.2 + 1 else tm.2))
    (0, 0)

/-- `computeMarketingContribution(historyEntries, marketingSources)` from
server.js: sort by timestamp ascending (stable), return zeros on an empty
list, else count valid entries and marketing entries and divide. -/
def computeMarketingContribution (historyEntries : List HistoryEntry)
    (marketingSources : List String) : ContributionResult :=
  let entries := List.insertionSort (fun a b => a.timestamp ≤ b.timestamp) historyEntries
  if entries = [] then ⟨0, 0, 0⟩
  else
    let c := contribCounts marketingSources entries
    ⟨if 0 < c.1 then (c.2 : ℚ) / (c.1 : ℚ) else 0, c.1, c.2⟩

/-- Stage metadata as read by `getClosedWonStageIds`: `isClosed` is the raw
string field (absent = `none`), `probability` is the numeric value of
`parseFloat(meta.probability || "0")` when the field is present. -/
structure StageMetadata where
  isClosed : Option String
  probability : Option ℚ
deriving DecidableEq

/-- One pipeline stage: `stage.id` and `stage.metadata || {}`. -/
structure PipelineStage where
  id : String
  metadata : Option StageMetadata
deriving DecidableEq

/-- One deal pipeline: its list of stages (`pipeline.stages || []`). -/
structure Pipeline where
  stages : List PipelineStage
deriving DecidableEq

/-- The per-stage test in `getClosedWonStageIds`:
`meta.isClosed === "true" && parseFloat(meta.probability || "0") >= 1.0`. -/
def stageIsClosedWon (stage : PipelineStage) : Bool :=
  let meta := stage.metadata.getD ⟨none, none⟩
  meta.isClosed = some "true" ∧ (1 : ℚ) ≤ meta.probability.getD 0

/-- The nested collection loop of `getClosedWonStageIds(portalId)`: for each
pipeline, for each stage, add the stage id when the closed-won test passes. -/
def getClosedWonStageIds (pipelines : List Pipeline) : List String :=
  pipelines.foldl
    (fun acc pipeline =>
      pipeline.stages.foldl
        (fun acc2 stage => if stageIsClosedWon stage then acc2 ++ [stage.id] else acc2)
        acc)
    []

/-- One conversion as consumed by the aggregation loop of `/api/mcf/refresh`:
the built path, `convResult.value || 0`, and `convResult.currency`. -/
structure ConversionRecord where
  path : List String
  value : ℚ
  currency : Option String
deriving DecidableEq

/-- One `pathCounts[key]` record:
`{ path, conversions, totalValue, currencies }` (the `Set` of currencies is an
insertion-ordered duplicate-free list). -/
structure PathAgg where
  path : List String
  conversions : Nat
  totalValue : ℚ
  currencies : List String
deriving DecidableEq

/-- The per-conversion mutation of `pathCounts[key]`: `conversions++`,
`totalValue += convResult.value || 0`, and
`if (convResult.currency) currencies.add(convResult.currency)` (an empty
string is falsy and is not added; `Set.add` ignores duplicates). -/
def bumpAgg (agg : PathAgg) (c : ConversionRecord) : PathAgg :=
  { agg with
    conversions := agg.conversions + 1
    totalValue := agg.totalValue + c.value
    currencies :=
      match c.currency with
      | some cur =>
          if cur = "" then agg.currencies
          else if cur ∈ agg.currencies then agg.currencies else agg.currencies ++ [cur]
      | none => agg.currencies }

/-- Association-list model of the `pathCounts` object: look up `key`; if absent
append a fresh zero record for this path (`if (!pathCounts[key]) pathCounts[key]
= { path, conversions: 0, totalValue: 0, currencies: new Set() }`), then apply
the mutation. -/
def addToBucket : List (String × PathAgg) → String → ConversionRecord →
    List (String × PathAgg)
  | [], key, c => [(key, bumpAgg ⟨c.path, 0, 0, []⟩ c)]
  | (k, agg) :: rest, key, c =>
      if k = key then (k, bumpAgg agg c) :: rest
      else (k, agg) :: addToBucket rest key c

/-- The whole accumulation loop of `/api/mcf/refresh` over a list of
conversions: fold each conversion into `pathCounts` under its
`pathToKey(path)`. -/
def accumulatePaths (conversions : List ConversionRecord) : List (String × PathAgg) :=
  conversions.foldl (fun bucket c => addToBucket bucket (pathToKey c.path) c) []

/-- Dictionary lookup in the association-list model of `pathCounts`. -/
def findAgg (key : String) : List (String × PathAgg) → Option PathAgg
  | [] => none
  | (k, agg) :: rest => if k = key then some agg else findAgg key rest

/-- `threshNum = Math.max(1, Math.ceil(totalConversions * (thresholdPct / 100)))`. -/
def threshNum (totalConversions : Nat) (thresholdPct : ℚ) : ℤ :=
  max 1 ⌈(totalConversions : ℚ) * (thresholdPct / 100)⌉

/-- The `topPaths` pipeline of `/api/mcf/refresh`: keep aggregated paths with
`conversions >= threshNum`, then sort by conversions descending with ties
broken by totalValue descending (stable sort, as JavaScript `Array.sort`). -/
def rankPaths (aggs : List PathAgg) (totalConversions : Nat) (thresholdPct : ℚ) :
    List PathAgg :=
  List.insertionSort
    (fun a b => b.conversions < a.conversions ∨
      (a.conversions = b.conversions ∧ b.totalValue ≤ a.totalValue))
    (aggs.filter fun p => threshNum totalConversions thresholdPct ≤ (p.conversions : ℤ))

/-! ### Properties of the collapse loop -/

/-- Each collapse step preserves the no-adjacent-duplicates invariant. -/
theorem chain'_collapseStep (acc : List String) (x : String)
    (h : List.Chain' (· ≠ ·) acc) : List.Chain' (· ≠ ·) (collapseStep acc x) := by
  unfold collapseStep
  split
  · rename_i hcond
    rw [List.chain'_append]
    refine ⟨h, List.chain'_singleton x, ?_⟩
    intro y hy z hz
    simp only [List.head?_cons, Option.mem_def, Option.some.injEq] at hz
    subst hz
    rcases hcond with hnil | hlast
    · subst hnil; simp at hy
    · intro hyx
      subst hyx
      exact hlast hy
  · exact h

/-- The collapse loop always yields a list with no two adjacent equal tokens. -/
theorem chain'_collapse_fold (l : List String) :
    ∀ acc : List String, List.Chain' (· ≠ ·) acc →
      List.Chain' (· ≠ ·) (l.foldl collapseStep acc) := by
  induction l with
  | nil => intro acc h; exact h
  | cons x xs ih =>
      intro acc h
      exact ih (collapseStep acc x) (chain'_collapseStep acc x h)

/-- `collapseConsecutive` output has no two adjacent equal tokens. -/
theorem chain'_collapseConsecutive (l : List String) :
    List.Chain' (· ≠ ·) (collapseConsecutive l) :=
  chain'_collapse_fold l [] List.chain'_nil

/-- On a list that already has no adjacent duplicates the collapse loop is the
identity (stated with a general accumulator for the induction). -/
theorem collapse_fold_of_chain' (l : List String) :
    ∀ acc : List String, List.Chain' (· ≠ ·) (acc ++ l) →
      l.foldl collapseStep acc = acc ++ l := by
  induction l with
  | nil => intro acc _; simp
  | cons x xs ih =>
      intro acc h
      have hstep : collapseStep acc x = acc ++ [x] := by
        unfold collapseStep
        rw [if_pos]
        rcases acc.eq_nil_or_concat with hnil | ⟨as, a, rfl⟩
        · exact Or.inl hnil
        · refine Or.inr ?_
          rw [List.chain'_append] at h
          have hax : a ≠ x := by
            refine h.2.2 a ?_ x ?_
            · simp
            · simp
          simp only [List.concat_eq_append, List.getLast?_concat, ne_eq,
            Option.some.injEq]
          exact hax
      have hres : (x :: xs).foldl collapseStep acc = xs.foldl collapseStep (acc ++ [x]) := by
        rw [List.foldl_cons, hstep]
      rw [hres, ih (acc ++ [x]) (by simpa using h)]
      simp

/-- `collapseConsecutive` is the identity on lists with no adjacent duplicates. -/
theorem collapse_of_chain' (l : List String) (h : List.Chain' (· ≠ ·) l) :
    collapseConsecutive l = l :=
  collapse_fold_of_chain' l [] (by simpa using h)

/-- `buildConversionPath` returns either the sentinel or a collapsed raw path. -/
theorem buildConversionPath_cases (S : List HistoryEntry) (t : Int) (d : Option Int) :
    buildConversionPath S t d = ["UNKNOWN"] ∨
      ∃ raw : List String, buildConversionPath S t d = collapseConsecutive raw := by
  simp only [buildConversionPath]
  split
  · exact Or.inl rfl
  · split
    · exact Or.inl rfl
    · exact Or.inr ⟨_, rfl⟩

/-- Claim C1: for every source-history list, conversion timestamp and lookback
argument, the path returned by `buildConversionPath` contains no two adjacent
equal tokens, and applying the consecutive-duplicate collapse to the result
leaves it unchanged (the collapse is idempotent on every produced path). -/
theorem buildConversionPath_no_adjacent_dup (S : List HistoryEntry) (t : Int)
    (d : Option Int) :
    List.Chain' (· ≠ ·) (buildConversionPath S t d) ∧
      collapseConsecutive (buildConversionPath S t d) = buildConversionPath S t d := by
  have hchain : List.Chain' (· ≠ ·) (buildConversionPath S t d) := by
    rcases buildConversionPath_cases S t d with h | ⟨raw, h⟩
    · rw [h]; simp
    · rw [h]; exact chain'_collapseConsecutive raw
  exact ⟨hchain, collapse_of_chain' _ hchain⟩

/-- If the window filter keeps nothing, `buildConversionPath` yields the sentinel. -/
theorem buildConversionPath_of_filter_nil (S : List HistoryEntry) (t : Int)
    (d : Option Int)
    (h : S.filter (fun e => windowStartOf t d ≤ e.timestamp ∧ e.timestamp ≤ t) = []) :
    buildConversionPath S t d = ["UNKNOWN"] := by
  simp only [buildConversionPath]
  rw [h]
  rfl

/-- Claim C4: `buildConversionPath` returns the sentinel `["UNKNOWN"]` on the
empty history, and on any history all of whose entries have a timestamp
strictly greater than the conversion timestamp. -/
theorem buildConversionPath_unknown_on_empty_window (S : List HistoryEntry)
    (t : Int) (d : Option Int) (h : ∀ e ∈ S, t < e.timestamp) :
    buildConversionPath [] t d = ["UNKNOWN"] ∧
      buildConversionPath S t d = ["UNKNOWN"] := by
  constructor
  · rfl
  · refine buildConversionPath_of_filter_nil S t d ?_
    rw [List.filter_eq_nil_iff]
    intro e he
    have := h e he
    simp only [decide_eq_true_eq, not_and]
    intro _
    omega

/-- Witness for C4 at a concrete input: a single entry strictly after the
conversion timestamp yields the sentinel. -/
theorem buildConversionPath_unknown_on_empty_window_witness :
    (∀ e ∈ [(⟨5, "A"⟩ : HistoryEntry)], (3 : Int) < e.timestamp) ∧
      (buildConversionPath [] 3 (some 7) = ["UNKNOWN"] ∧
        buildConversionPath [(⟨5, "A"⟩ : HistoryEntry)] 3 (some 7) = ["UNKNOWN"]) :=
  ⟨by decide, buildConversionPath_unknown_on_empty_window _ 3 (some 7) (by decide)⟩

/-! ### Provenance of path tokens -/

/-- The collapse loop only ever emits tokens of its input (or its accumulator). -/
theorem mem_collapse_fold (l : List String) :
    ∀ (acc : List String) (x : String), x ∈ l.foldl collapseStep acc →
      x ∈ acc ∨ x ∈ l := by
  induction l with
  | nil => intro acc x h; exact Or.inl h
  | cons y ys ih =>
      intro acc x h
      rcases ih (collapseStep acc y) x h with hmem | hmem
      · unfold collapseStep at hmem
        split at hmem
        · rcases List.mem_append.mp hmem with h1 | h1
          · exact Or.inl h1
          · simp only [List.mem_singleton] at h1
            subst h1
            exact Or.inr (List.mem_cons_self _ _)
        · exact Or.inl hmem
      · exact Or.inr (List.mem_cons_of_mem _ hmem)

/-- Every token of `collapseConsecutive l` is a token of `l`. -/
theorem mem_collapseConsecutive (l : List String) (x : String)
    (h : x ∈ collapseConsecutive l) : x ∈ l := by
  rcases mem_collapse_fold l [] x h with h1 | h1
  · simp at h1
  · exact h1

/-- Claim C7 (amended): every token of a non-sentinel path produced by
`buildConversionPath` comes from a history entry whose timestamp lies in
`[windowStart, conversionTimestamp]`, where
`windowStart = conversionTimestamp - lookbackMs`.  (The code does not require
`0 < timestamp`: an absent/zero timestamp entry is eligible whenever
`windowStart ≤ 0`.) -/
theorem buildConversionPath_tokens_from_window (S : List HistoryEntry) (t : Int)
    (d : Option Int) (tok : String) (h : tok ∈ buildConversionPath S t d) :
    buildConversionPath S t d = ["UNKNOWN"] ∨
      ∃ e ∈ S, windowStartOf t d ≤ e.timestamp ∧ e.timestamp ≤ t ∧
        tok = normalizeSourceValue e.value := by
  by_cases hu : buildConversionPath S t d = ["UNKNOWN"]
  · exact Or.inl hu
  · refine Or.inr ?_
    simp only [buildConversionPath] at h hu
    split_ifs at h hu with h1 h2
    · exact absurd rfl hu
    · exact absurd rfl hu
    · have htok : tok ∈ (List.insertionSort (fun a b => a.timestamp ≤ b.timestamp)
          (S.filter fun e =>
            windowStartOf t d ≤ e.timestamp ∧ e.timestamp ≤ t)).map
          (fun e => normalizeSourceValue e.value) := by
        have := mem_collapseConsecutive _ _ h
        exact (List.mem_filter.mp this).1
      rcases List.mem_map.mp htok with ⟨e, hesort, hval⟩
      have hefilter := (List.perm_insertionSort
        (fun a b : HistoryEntry => a.timestamp ≤ b.timestamp) _).mem_iff.mp hesort
      rcases List.mem_filter.mp hefilter with ⟨heS, hcond⟩
      simp only [decide_eq_true_eq] at hcond
      exact ⟨e, heS, hcond.1, hcond.2, hval.symm⟩

/-- Witness for the amended C7 at a concrete input. -/
theorem buildConversionPath_tokens_from_window_witness :
    ("A" ∈ buildConversionPath [(⟨5, "A"⟩ : HistoryEntry)] 10 (some 1)) ∧
      (buildConversionPath [(⟨5, "A"⟩ : HistoryEntry)] 10 (some 1) = ["UNKNOWN"] ∨
        ∃ e ∈ [(⟨5, "A"⟩ : HistoryEntry)], windowStartOf 10 (some 1) ≤ e.timestamp ∧
          e.timestamp ≤ 10 ∧ "A" = normalizeSourceValue e.value) :=
  ⟨by decide, buildConversionPath_tokens_from_window _ _ _ _ (by decide)⟩

/-- Counterexample to C7 as stated: with conversion timestamp `1000` and a one
day lookback the window start is negative, so an entry with timestamp `0`
(i.e. an absent timestamp) IS included and contributes its token, contradicting
the claim that entries with timestamp 0 are never included. -/
theorem buildConversionPath_timestamp_zero_cex :
    buildConversionPath [(⟨0, "A"⟩ : HistoryEntry)] 1000 (some 1) = ["A"] ∧
      ¬ (0 : Int) < 0 := by decide

/-- Counterexample to C6 as stated: with no lookback supplied, an entry with
`0 < timestamp ≤ conversionTimestamp` that is older than the 90-day default
window does NOT contribute — the whole pre-conversion history is not eligible. -/
theorem buildConversionPath_full_history_cex :
    (0 : Int) < 1 ∧ (1 : Int) ≤ 8000000000000 ∧
      buildConversionPath [(⟨1, "A"⟩ : HistoryEntry)] 8000000000000 none = ["UNKNOWN"] ∧
      "A" ∉ buildConversionPath [(⟨1, "A"⟩ : HistoryEntry)] 8000000000000 none := by
  decide

/-- Claim C6 (amended): when the lookback argument is absent or zero,
`buildConversionPath` falls back to the `MCF_LOOKBACK_DAYS = 90` day window —
it behaves exactly like an explicit 90-day lookback, and a history lying
entirely before that window yields the sentinel `["UNKNOWN"]`. -/
theorem buildConversionPath_default_lookback (S : List HistoryEntry) (t : Int)
    (h : ∀ e ∈ S, e.timestamp < t - MCF_LOOKBACK_DAYS * 86400000) :
    buildConversionPath S t none = buildConversionPath S t (some MCF_LOOKBACK_DAYS) ∧
      buildConversionPath S t (some 0) =
        buildConversionPath S t (some MCF_LOOKBACK_DAYS) ∧
      buildConversionPath S t none = ["UNKNOWN"] := by
  refine ⟨rfl, rfl, ?_⟩
  refine buildConversionPath_of_filter_nil S t none ?_
  rw [List.filter_eq_nil_iff]
  intro e he
  have hlt := h e he
  simp only [windowStartOf, effectiveLookbackDays, MCF_LOOKBACK_DAYS] at hlt ⊢
  simp only [decide_eq_true_eq, not_and]
  intro h1
  omega

/-- Witness for the amended C6 at a concrete input. -/
theorem buildConversionPath_default_lookback_witness :
    (∀ e ∈ [(⟨1, "A"⟩ : HistoryEntry)],
        e.timestamp < 8000000000000 - MCF_LOOKBACK_DAYS * 86400000) ∧
      (buildConversionPath [(⟨1, "A"⟩ : HistoryEntry)] 8000000000000 none =
          buildConversionPath [(⟨1, "A"⟩ : HistoryEntry)] 8000000000000
            (some MCF_LOOKBACK_DAYS) ∧
        buildConversionPath [(⟨1, "A"⟩ : HistoryEntry)] 8000000000000 (some 0) =
          buildConversionPath [(⟨1, "A"⟩ : HistoryEntry)] 8000000000000
            (some MCF_LOOKBACK_DAYS) ∧
        buildConversionPath [(⟨1, "A"⟩ : HistoryEntry)] 8000000000000 none =
          ["UNKNOWN"]) :=
  ⟨by decide, buildConversionPath_default_lookback _ _ (by decide)⟩

/-! ### The contribution scorer -/

/-- Loop condition of `computeMarketingContribution`: the entry's trimmed value
is non-empty, so it is counted in `totalChanges`. -/
def isValidEntry (e : HistoryEntry) : Bool :=
  decide (jsTrim e.value ≠ "")

/-- Loop condition of `computeMarketingContribution`: the entry's trimmed value
is non-empty and the marketing set has it, so it is counted in
`marketingChanges`. -/
def isMarketingEntry (ms : List String) (e : HistoryEntry) : Bool :=
  decide (jsTrim e.value ≠ "" ∧ jsTrim e.value ∈ ms)

/-- The counting loop counts exactly the valid and the marketing entries. -/
theorem contribCounts_eq (ms : List String) (l : List HistoryEntry) :
    contribCounts ms l = (l.countP isValidEntry, l.countP (isMarketingEntry ms)) := by
  induction l using List.reverseRecOn with
  | nil => rfl
  | append_singleton l e ih =>
      simp only [contribCounts, List.foldl_append, List.foldl_cons, List.foldl_nil] at ih ⊢
      rw [ih]
      simp only [List.countP_append, List.countP_cons, List.countP_nil]
      by_cases hv : jsTrim e.value = ""
      · simp [isValidEntry, isMarketingEntry, hv]
      · by_cases hm : jsTrim e.value ∈ ms
        · simp [isValidEntry, isMarketingEntry, hv, hm]
        · simp [isValidEntry, isMarketingEntry, hv, hm]

/-- Full characterization of `computeMarketingContribution` in terms of counts
over the (unsorted) input history. -/
theorem computeMarketingContribution_eq (h : List HistoryEntry) (ms : List String) :
    computeMarketingContribution h ms =
      ⟨if h.countP isValidEntry = 0 then 0
        else (h.countP (isMarketingEntry ms) : ℚ) / (h.countP isValidEntry : ℚ),
       h.countP isValidEntry, h.countP (isMarketingEntry ms)⟩ := by
  simp only [computeMarketingContribution]
  have hperm := List.perm_insertionSort
    (fun a b : HistoryEntry => a.timestamp ≤ b.timestamp) h
  split
  · rename_i hnil
    rw [hnil] at hperm
    have hh : h = [] := (List.nil_perm.mp hperm)
    subst hh
    simp
  · rw [contribCounts_eq, hperm.countP_eq, hperm.countP_eq]
    rcases Nat.eq_zero_or_pos (h.countP isValidEntry) with hz | hpos
    · simp [hz]
    · simp [Nat.pos_iff_ne_zero.mp hpos, hpos]

/-- Counterexample to C5 as stated: the code only trims, it does not
upper-case, before testing membership in the marketing set.  The entry value
`"referrals"` upper-cases into the marketing set `["REFERRALS"]`, yet it is
counted in the denominator and NOT in the numerator. -/
theorem computeMarketingContribution_no_uppercasing_cex :
    (computeMarketingContribution [(⟨1, "referrals"⟩ : HistoryEntry)]
        ["REFERRALS"]).totalChanges = 1 ∧
      (computeMarketingContribution [(⟨1, "referrals"⟩ : HistoryEntry)]
        ["REFERRALS"]).marketingChanges = 0 ∧
      jsUpper (jsTrim "referrals") ∈ ["REFERRALS"] := by decide

/-- Claim C5 (amended): policy (a) with membership tested on the *trimmed*
value (no upper-casing): every entry with a non-empty trimmed value adds one to
the denominator, adds one to the numerator iff its trimmed value is in the
marketing set, and `percent = marketingCount / totalCount` with `0` on an empty
denominator; the four-entry example yields `totalCount = 4`,
`marketingCount = 2`, `percent = 1/2`. -/
theorem computeMarketingContribution_policy_a :
    (∀ (h : List HistoryEntry) (ms : List String),
      (computeMarketingContribution h ms).totalChanges = h.countP isValidEntry ∧
        (computeMarketingContribution h ms).marketingChanges =
          h.countP (isMarketingEntry ms) ∧
        (computeMarketingContribution h ms).percent =
          (if h.countP isValidEntry = 0 then 0
            else (h.countP (isMarketingEntry ms) : ℚ) /
              (h.countP isValidEntry : ℚ))) ∧
      computeMarketingContribution
        [(⟨1, "REFERRALS"⟩ : HistoryEntry), ⟨2, "OFFLINE"⟩, ⟨3, "PAID_SEARCH"⟩,
          ⟨4, "OFFLINE"⟩] ["REFERRALS", "PAID_SEARCH"] = ⟨1/2, 4, 2⟩ := by
  constructor
  · intro h ms
    rw [computeMarketingContribution_eq]
    exact ⟨rfl, rfl, rfl⟩
  · have h1 : List.countP isValidEntry
        [(⟨1, "REFERRALS"⟩ : HistoryEntry), ⟨2, "OFFLINE"⟩, ⟨3, "PAID_SEARCH"⟩,
          ⟨4, "OFFLINE"⟩] = 4 := by decide
    have h2 : List.countP (isMarketingEntry ["REFERRALS", "PAID_SEARCH"])
        [(⟨1, "REFERRALS"⟩ : HistoryEntry), ⟨2, "OFFLINE"⟩, ⟨3, "PAID_SEARCH"⟩,
          ⟨4, "OFFLINE"⟩] = 2 := by decide
    rw [computeMarketingContribution_eq, h1, h2]
    norm_num

/-- Claim C10: `computeMarketingContribution` is invariant under permutation of
its input history list. -/
theorem computeMarketingContribution_perm_invariant (h h' : List HistoryEntry)
    (ms : List String) (hp : h.Perm h') :
    computeMarketingContribution h ms = computeMarketingContribution h' ms := by
  rw [computeMarketingContribution_eq, computeMarketingContribution_eq,
    hp.countP_eq, hp.countP_eq]

/-- Witness for C10 at a concrete input. -/
theorem computeMarketingContribution_perm_invariant_witness :
    ([(⟨1, "A"⟩ : HistoryEntry), ⟨2, "B"⟩].Perm
        [(⟨2, "B"⟩ : HistoryEntry), ⟨1, "A"⟩]) ∧
      computeMarketingContribution [(⟨1, "A"⟩ : HistoryEntry), ⟨2, "B"⟩] ["A"] =
        computeMarketingContribution [(⟨2, "B"⟩ : HistoryEntry), ⟨1, "A"⟩] ["A"] :=
  ⟨by decide, computeMarketingContribution_perm_invariant _ _ _ (by decide)⟩

/-! ### Closed-won stage classification -/

/-- Membership after the inner (per-pipeline) stage loop. -/
theorem mem_stage_fold (stages : List PipelineStage) :
    ∀ (acc : List String) (x : String),
      (x ∈ stages.foldl
          (fun acc2 stage =>
            if stageIsClosedWon stage then acc2 ++ [stage.id] else acc2) acc) ↔
        x ∈ acc ∨ ∃ s ∈ stages, stageIsClosedWon s = true ∧ s.id = x := by
  induction stages with
  | nil => intro acc x; simp
  | cons s ss ih =>
      intro acc x
      rw [List.foldl_cons]
      by_cases hs : stageIsClosedWon s
      · rw [if_pos hs, ih]
        constructor
        · rintro (hacc | hrest)
          · rcases List.mem_append.mp hacc with h1 | h1
            · exact Or.inl h1
            · simp only [List.mem_singleton] at h1
              exact Or.inr ⟨s, List.mem_cons_self _ _, hs, h1.symm⟩
          · rcases hrest with ⟨s', hs', hcond, hid⟩
            exact Or.inr ⟨s', List.mem_cons_of_mem _ hs', hcond, hid⟩
        · rintro (hacc | ⟨s', hs', hcond, hid⟩)
          · exact Or.inl (List.mem_append.mpr (Or.inl hacc))
          · rcases List.mem_cons.mp hs' with rfl | hs''
            · exact Or.inl (List.mem_append.mpr (Or.inr (by simp [hid.symm])))
            · exact Or.inr ⟨s', hs'', hcond, hid⟩
      · rw [if_neg hs, ih]
        constructor
        · rintro (hacc | ⟨s', hs', hcond, hid⟩)
          · exact Or.inl hacc
          · exact Or.inr ⟨s', List.mem_cons_of_mem _ hs', hcond, hid⟩
        · rintro (hacc | ⟨s', hs', hcond, hid⟩)
          · exact Or.inl hacc
          · rcases List.mem_cons.mp hs' with rfl | hs''
            · exact absurd hcond (by simpa using hs)
            · exact Or.inr ⟨s', hs'', hcond, hid⟩

/-- Membership after the outer pipeline loop, for any accumulator. -/
theorem mem_pipeline_fold (pipelines : List Pipeline) :
    ∀ (acc : List String) (x : String),
      (x ∈ pipelines.foldl
          (fun acc pipeline =>
            pipeline.stages.foldl
              (fun acc2 stage =>
                if stageIsClosedWon stage then acc2 ++ [stage.id] else acc2) acc)
          acc) ↔
        x ∈ acc ∨
          ∃ p ∈ pipelines, ∃ s ∈ p.stages, stageIsClosedWon s = true ∧ s.id = x := by
  induction pipelines with
  | nil => intro acc x; simp
  | cons p ps ih =>
      intro acc x
      rw [List.foldl_cons, ih, mem_stage_fold]
      constructor
      · rintro ((hacc | ⟨s, hs, hcond, hid⟩) | ⟨p', hp', rest⟩)
        · exact Or.inl hacc
        · exact Or.inr ⟨p, List.mem_cons_self _ _, s, hs, hcond, hid⟩
        · exact Or.inr ⟨p', List.mem_cons_of_mem _ hp', rest⟩
      · rintro (hacc | ⟨p', hp', rest⟩)
        · exact Or.inl (Or.inl hacc)
        · rcases List.mem_cons.mp hp' with rfl | hp''
          · exact Or.inl (Or.inr rest)
          · exact Or.inr ⟨p', hp'', rest⟩

/-- Counterexample to C8 as stated: a closed stage whose win-probability parses
to `2` (≠ 1.0) IS classified closed-won, because the code tests
`parseFloat(...) >= 1.0`, not equality with `1.0`. -/
theorem getClosedWonStageIds_prob_above_one_cex :
    getClosedWonStageIds
        [⟨[⟨"s1", some ⟨some "true", some 2⟩⟩]⟩] = ["s1"] ∧ (2 : ℚ) ≠ 1 := by
  decide

/-- Claim C8 (amended): a stage id is returned by `getClosedWonStageIds` iff
some stage with that id has metadata with `isClosed === "true"` AND a parsed
win-probability `>= 1.0` (missing metadata or probability defaults to `0`). -/
theorem getClosedWonStageIds_mem_iff (pipelines : List Pipeline) (x : String) :
    x ∈ getClosedWonStageIds pipelines ↔
      ∃ p ∈ pipelines, ∃ s ∈ p.stages, s.id = x ∧
        (s.metadata.getD ⟨none, none⟩).isClosed = some "true" ∧
        (1 : ℚ) ≤ (s.metadata.getD ⟨none, none⟩).probability.getD 0 := by
  unfold getClosedWonStageIds
  rw [mem_pipeline_fold]
  simp only [List.not_mem_nil, false_or]
  constructor
  · rintro ⟨p, hp, s, hs, hcond, hid⟩
    simp only [stageIsClosedWon, decide_eq_true_eq] at hcond
    exact ⟨p, hp, s, hs, hid, hcond.1, hcond.2⟩
  · rintro ⟨p, hp, s, hs, hid, hclosed, hprob⟩
    refine ⟨p, hp, s, hs, ?_, hid⟩
    simp only [stageIsClosedWon, decide_eq_true_eq]
    exact ⟨hclosed, hprob⟩

/-! ### Injectivity of pathToKey -/

/-- Character-level form of the tail of a `join(">")`: each further token is
preceded by one separator. -/
def joinTail : List (List Char) → List Char
  | [] => []
  | y :: ys => '>' :: (y ++ joinTail ys)

/-- The string fold in `pathToKey` appends exactly `joinTail` of the tail's
character data. -/
theorem pathToKey_fold_data (xs : List String) :
    ∀ acc : String,
      (xs.foldl (fun acc s => acc ++ ">" ++ s) acc).data =
        acc.data ++ joinTail (xs.map String.data) := by
  induction xs with
  | nil => intro acc; simp [joinTail]
  | cons y ys ih =>
      intro acc
      rw [List.foldl_cons, ih, List.map_cons]
      simp only [joinTail, String.data_append]
      simp [String.data_append]

/-- Character data of `pathToKey`. -/
theorem pathToKey_data (x : String) (xs : List String) :
    (pathToKey (x :: xs)).data = x.data ++ joinTail (xs.map String.data) := by
  simp only [pathToKey]
  rw [pathToKey_fold_data]

/-- Splitting at the first separator: two separator-free chunks followed by a
separator determine each other. -/
theorem sep_split (a1 : List Char) :
    ∀ (a2 t1 t2 : List Char), '>' ∉ a1 → '>' ∉ a2 →
      a1 ++ '>' :: t1 = a2 ++ '>' :: t2 → a1 = a2 ∧ t1 = t2 := by
  induction a1 with
  | nil =>
      intro a2 t1 t2 _ h2 heq
      cases a2 with
      | nil => simpa using heq
      | cons c cs =>
          simp only [List.nil_append, List.cons_append, List.cons.injEq] at heq
          exact absurd (heq.1 ▸ List.mem_cons_self c cs) h2
  | cons c cs ih =>
      intro a2 t1 t2 h1 h2 heq
      cases a2 with
      | nil =>
          simp only [List.cons_append, List.nil_append, List.cons.injEq] at heq
          exact absurd (heq.1 ▸ List.mem_cons_self c cs) h1
      | cons d ds =>
          simp only [List.cons_append, List.cons.injEq] at heq
          obtain ⟨rfl, heq2⟩ := heq
          have h1' : '>' ∉ cs := fun hc => h1 (List.mem_cons_of_mem _ hc)
          have h2' : '>' ∉ ds := fun hc => h2 (List.mem_cons_of_mem _ hc)
          obtain ⟨rfl, rfl⟩ := ih ds t1 t2 h1' h2' heq2
          exact ⟨rfl, rfl⟩

/-- A separator-free chunk can never equal a chunk followed by a separator. -/
theorem sep_chunk_clash (a1 a2 r2 : List Char) (h1 : '>' ∉ a1) (_h2 : '>' ∉ a2)
    (heq : a1 = a2 ++ '>' :: r2) : False := by
  apply h1
  rw [heq]
  exact List.mem_append.mpr (Or.inr (List.mem_cons_self _ _))

/-- Injectivity of the joined character form on nonempty token lists with
separator-free tokens. -/
theorem joinData_inj (xs1 : List (List Char)) :
    ∀ (x1 x2 : List Char) (xs2 : List (List Char)),
      '>' ∉ x1 → '>' ∉ x2 → (∀ s ∈ xs1, '>' ∉ s) → (∀ s ∈ xs2, '>' ∉ s) →
      x1 ++ joinTail xs1 = x2 ++ joinTail xs2 → x1 = x2 ∧ xs1 = xs2 := by
  induction xs1 with
  | nil =>
      intro x1 x2 xs2 h1 h2 _ hall2 heq
      cases xs2 with
      | nil => simpa using heq
      | cons y ys =>
          simp only [joinTail, List.append_nil] at heq
          exact absurd (sep_chunk_clash x1 x2 _ h1 h2 heq) not_false
  | cons y ys ih =>
      intro x1 x2 xs2 h1 h2 hall1 hall2 heq
      cases xs2 with
      | nil =>
          simp only [joinTail, List.append_nil] at heq
          exact absurd (sep_chunk_clash x2 x1 _ h2 h1 heq.symm) not_false
      | cons z zs =>
          simp only [joinTail] at heq
          obtain ⟨rfl, heq2⟩ := sep_split x1 x2 _ _ h1 h2 heq
          have hy : '>' ∉ y := hall1 y (List.mem_cons_self _ _)
          have hz : '>' ∉ z := hall2 z (List.mem_cons_self _ _)
          have hys : ∀ s ∈ ys, '>' ∉ s := fun s hs => hall1 s (List.mem_cons_of_mem _ hs)
          have hzs : ∀ s ∈ zs, '>' ∉ s := fun s hs => hall2 s (List.mem_cons_of_mem _ hs)
          obtain ⟨rfl, rfl⟩ := ih y z zs hy hz hys hzs heq2
          exact ⟨rfl, rfl⟩

/-- Two strings with the same character data are equal. -/
theorem string_data_inj (a b : String) (h : a.data = b.data) : a = b := by
  cases a
  cases b
  exact congrArg String.mk h

/-- Counterexample to C9 as stated: `pathToKey` is NOT injective on all paths —
the one-token path `["A>B"]` and the two-token path `["A", "B"]` share the key
`"A>B"` while being different token sequences. -/
theorem pathToKey_not_injective_cex :
    pathToKey ["A>B"] = pathToKey ["A", "B"] ∧ (["A>B"] : List String) ≠ ["A", "B"] := by
  decide

/-- Claim C9 (amended): on nonempty paths whose tokens do not contain the
separator character `'>'` (which holds for every path of normalized channel
tokens), `pathToKey` is injective: keys are equal iff the token sequences are
exactly equal. -/
theorem pathToKey_inj_on_sep_free (p1 p2 : List String) (h1 : p1 ≠ []) (h2 : p2 ≠ [])
    (n1 : ∀ s ∈ p1, '>' ∉ s.data) (n2 : ∀ s ∈ p2, '>' ∉ s.data) :
    pathToKey p1 = pathToKey p2 ↔ p1 = p2 := by
  constructor
  · intro heq
    cases p1 with
    | nil => exact absurd rfl h1
    | cons x1 xs1 =>
        cases p2 with
        | nil => exact absurd rfl h2
        | cons x2 xs2 =>
            have hdata : (pathToKey (x1 :: xs1)).data = (pathToKey (x2 :: xs2)).data := by
              rw [heq]
            rw [pathToKey_data, pathToKey_data] at hdata
            have hx1 : '>' ∉ x1.data := n1 x1 (List.mem_cons_self _ _)
            have hx2 : '>' ∉ x2.data := n2 x2 (List.mem_cons_self _ _)
            have hxs1 : ∀ s ∈ xs1.map String.data, '>' ∉ s := by
              intro s hs
              rcases List.mem_map.mp hs with ⟨s', hs', rfl⟩
              exact n1 s' (List.mem_cons_of_mem _ hs')
            have hxs2 : ∀ s ∈ xs2.map String.data, '>' ∉ s := by
              intro s hs
              rcases List.mem_map.mp hs with ⟨s', hs', rfl⟩
              exact n2 s' (List.mem_cons_of_mem _ hs')
            obtain ⟨hx, hxs⟩ := joinData_inj (xs1.map String.data) x1.data x2.data
              (xs2.map String.data) hx1 hx2 hxs1 hxs2 hdata
            have hxeq : x1 = x2 := string_data_inj _ _ hx
            have hxseq : xs1 = xs2 := by
              have hinj : Function.Injective String.data := fun a b hab =>
                string_data_inj a b hab
              exact List.map_injective_iff.mpr hinj hxs
            rw [hxeq, hxseq]
  · intro heq
    rw [heq]

/-- Witness for the amended C9 at a concrete input. -/
theorem pathToKey_inj_on_sep_free_witness :
    ((["ORGANIC_SEARCH", "DIRECT_TRAFFIC"] : List String) ≠ [] ∧
        (["ORGANIC_SEARCH"] : List String) ≠ [] ∧
        (∀ s ∈ (["ORGANIC_SEARCH", "DIRECT_TRAFFIC"] : List String), '>' ∉ s.data) ∧
        (∀ s ∈ (["ORGANIC_SEARCH"] : List String), '>' ∉ s.data)) ∧
      (pathToKey ["ORGANIC_SEARCH", "DIRECT_TRAFFIC"] = pathToKey ["ORGANIC_SEARCH"] ↔
        (["ORGANIC_SEARCH", "DIRECT_TRAFFIC"] : List String) = ["ORGANIC_SEARCH"]) :=
  ⟨⟨by decide, by decide, by decide, by decide⟩,
    pathToKey_inj_on_sep_free _ _ (by decide) (by decide) (by decide) (by decide)⟩

/-! ### Threshold filtering -/

/-- Claim C3: the cutoff equals `max(1, ceil(totalConversions * thresholdPct /
100))`; an aggregated path appears in the ranked output iff it was aggregated
and its conversions count reaches the cutoff; and for `total = 27`,
`pct = 10` the cutoff is `3`, so `3` conversions qualify and `2` do not. -/
theorem threshold_cutoff_spec :
    (∀ (total : Nat) (pct : ℚ),
      threshNum total pct = max 1 ⌈(total : ℚ) * pct / 100⌉) ∧
      threshNum 27 10 = 3 ∧
      (threshNum 27 10 ≤ (3 : ℤ) ∧ ¬ threshNum 27 10 ≤ (2 : ℤ)) ∧
      (∀ (aggs : List PathAgg) (total : Nat) (pct : ℚ) (a : PathAgg),
        a ∈ rankPaths aggs total pct ↔
          a ∈ aggs ∧ threshNum total pct ≤ (a.conversions : ℤ)) := by
  have h27 : threshNum 27 10 = 3 := by
    have hc : (⌈((27 : Nat) : ℚ) * ((10 : ℚ) / 100)⌉ : ℤ) = 3 := by
      rw [Int.ceil_eq_iff]; norm_num
    rw [threshNum, hc]
    rfl
  refine ⟨?_, h27, ?_, ?_⟩
  · intro total pct
    rw [threshNum, mul_div_assoc]
  · rw [h27]
    exact ⟨by norm_num, by norm_num⟩
  · intro aggs total pct a
    rw [rankPaths]
    rw [(List.perm_insertionSort _ _).mem_iff, List.mem_filter]
    simp only [decide_eq_true_eq]

/-! ### Order-invariance of the path aggregation -/

/-- Conversions count stored for a key (0 when the key is absent). -/
def bucketConversions (key : String) (bucket : List (String × PathAgg)) : Nat :=
  ((findAgg key bucket).map PathAgg.conversions).getD 0

/-- Total value stored for a key (0 when the key is absent). -/
def bucketValue (key : String) (bucket : List (String × PathAgg)) : ℚ :=
  ((findAgg key bucket).map PathAgg.totalValue).getD 0

/-- The currency set stored for a key (empty when the key is absent). -/
def bucketCurrencies (key : String) (bucket : List (String × PathAgg)) : List String :=
  ((findAgg key bucket).map PathAgg.currencies).getD []

/-- How a single `addToBucket` affects a lookup. -/
theorem findAgg_addToBucket (bucket : List (String × PathAgg)) (ku kq : String)
    (c : ConversionRecord) :
    findAgg kq (addToBucket bucket ku c) =
      if ku = kq then some (bumpAgg ((findAgg kq bucket).getD ⟨c.path, 0, 0, []⟩) c)
      else findAgg kq bucket := by
  induction bucket with
  | nil => simp [addToBucket, findAgg]
  | cons hd tl ih =>
      obtain ⟨k, agg⟩ := hd
      by_cases hku : k = ku
      · subst hku
        simp only [addToBucket, if_pos rfl, findAgg]
        by_cases hkq : k = kq
        · subst hkq
          simp [findAgg]
        · simp [findAgg, hkq]
      · simp only [addToBucket, if_neg hku, findAgg]
        by_cases hkq : k = kq
        · subst hkq
          by_cases huq : ku = k
          · exact absurd huq.symm hku
          · simp [findAgg, huq]
        · simp only [if_neg hkq]
          exact ih

/-- Membership in the currency list after one bump. -/
theorem mem_bumpAgg_currencies (agg : PathAgg) (c : ConversionRecord) (cur : String) :
    cur ∈ (bumpAgg agg c).currencies ↔
      cur ∈ agg.currencies ∨ (c.currency = some cur ∧ cur ≠ "") := by
  cases hc : c.currency with
  | none => simp [bumpAgg, hc]
  | some cur0 =>
      simp only [bumpAgg, hc, Option.some.injEq]
      by_cases h0 : cur0 = ""
      · subst h0
        rw [if_pos rfl]
        constructor
        · exact fun h => Or.inl h
        · rintro (h | ⟨hs, hne⟩)
          · exact h
          · exact absurd hs.symm hne
      · rw [if_neg h0]
        by_cases hmem : cur0 ∈ agg.currencies
        · rw [if_pos hmem]
          constructor
          · exact fun h => Or.inl h
          · rintro (h | ⟨hs, _⟩)
            · exact h
            · subst hs
              exact hmem
        · rw [if_neg hmem, List.mem_append, List.mem_singleton]
          constructor
          · rintro (h | rfl)
            · exact Or.inl h
            · exact Or.inr ⟨rfl, h0⟩
          · rintro (h | ⟨hs, _⟩)
            · exact Or.inl h
            · subst hs
              exact Or.inr rfl

/-- One `addToBucket` adds one to the stored count of its key and nothing else. -/
theorem bucketConversions_addToBucket (bucket : List (String × PathAgg))
    (ku kq : String) (c : ConversionRecord) :
    bucketConversions kq (addToBucket bucket ku c) =
      bucketConversions kq bucket + (if ku = kq then 1 else 0) := by
  unfold bucketConversions
  rw [findAgg_addToBucket]
  by_cases h : ku = kq
  · cases hfa : findAgg kq bucket with
    | none => simp [h, hfa, bumpAgg]
    | some a => simp [h, hfa, bumpAgg]
  · simp [h]

/-- One `addToBucket` adds its conversion's value to the stored total of its
key and nothing else. -/
theorem bucketValue_addToBucket (bucket : List (String × PathAgg))
    (ku kq : String) (c : ConversionRecord) :
    bucketValue kq (addToBucket bucket ku c) =
      bucketValue kq bucket + (if ku = kq then c.value else 0) := by
  unfold bucketValue
  rw [findAgg_addToBucket]
  by_cases h : ku = kq
  · cases hfa : findAgg kq bucket with
    | none => simp [h, hfa, bumpAgg]
    | some a => simp [h, hfa, bumpAgg]
  · simp [h]

/-- One `addToBucket` can only add its conversion's currency, under its key. -/
theorem bucketCurrencies_addToBucket (bucket : List (String × PathAgg))
    (ku kq cur : String) (c : ConversionRecord) :
    cur ∈ bucketCurrencies kq (addToBucket bucket ku c) ↔
      cur ∈ bucketCurrencies kq bucket ∨
        (ku = kq ∧ c.currency = some cur ∧ cur ≠ "") := by
  unfold bucketCurrencies
  rw [findAgg_addToBucket]
  by_cases h : ku = kq
  · rw [if_pos h]
    cases hfa : findAgg kq bucket with
    | none =>
        simp only [hfa, Option.map_some', Option.getD_some, Option.map_none',
          Option.getD_none]
        rw [mem_bumpAgg_currencies]
        simp [h]
    | some a =>
        simp only [hfa, Option.map_some', Option.getD_some]
        rw [mem_bumpAgg_currencies]
        simp [h]
  · rw [if_neg h]
    simp [h]

/-- One `addToBucket` makes its key present and keeps every present key. -/
theorem isSome_findAgg_addToBucket (bucket : List (String × PathAgg))
    (ku kq : String) (c : ConversionRecord) :
    (findAgg kq (addToBucket bucket ku c)).isSome =
      ((findAgg kq bucket).isSome || (ku == kq)) := by
  rw [findAgg_addToBucket]
  by_cases h : ku = kq
  · simp [h]
  · simp [h]

/-- Count stored after folding a conversion list into a bucket. -/
theorem bucketConversions_fold (convs : List ConversionRecord) :
    ∀ (bucket : List (String × PathAgg)) (kq : String),
      bucketConversions kq
          (convs.foldl (fun bucket c => addToBucket bucket (pathToKey c.path) c) bucket) =
        bucketConversions kq bucket +
          convs.countP (fun c => pathToKey c.path == kq) := by
  induction convs with
  | nil => intro bucket kq; simp
  | cons c cs ih =>
      intro bucket kq
      rw [List.foldl_cons, ih, bucketConversions_addToBucket, List.countP_cons]
      by_cases h : pathToKey c.path = kq
      · simp only [h, beq_self_eq_true, if_pos]
        omega
      · simp only [h, if_neg]
        have hb : (pathToKey c.path == kq) = false := beq_eq_false_iff_ne.mpr h
        simp [hb]

/-- Total value stored after folding a conversion list into a bucket. -/
theorem bucketValue_fold (convs : List ConversionRecord) :
    ∀ (bucket : List (String × PathAgg)) (kq : String),
      bucketValue kq
          (convs.foldl (fun bucket c => addToBucket bucket (pathToKey c.path) c) bucket) =
        bucketValue kq bucket +
          ((convs.filter (fun c => pathToKey c.path == kq)).map
            ConversionRecord.value).sum := by
  induction convs with
  | nil => intro bucket kq; simp
  | cons c cs ih =>
      intro bucket kq
      rw [List.foldl_cons, ih, bucketValue_addToBucket, List.filter_cons]
      by_cases h : pathToKey c.path = kq
      · simp only [h, beq_self_eq_true, if_pos, List.map_cons, List.sum_cons]
        ring
      · have hb : (pathToKey c.path == kq) = false := beq_eq_false_iff_ne.mpr h
        simp only [h, hb, Bool.false_eq_true, if_neg, if_false]
        simp [h]

/-- Currency membership stored after folding a conversion list into a bucket. -/
theorem bucketCurrencies_fold (convs : List ConversionRecord) :
    ∀ (bucket : List (String × PathAgg)) (kq cur : String),
      cur ∈ bucketCurrencies kq
          (convs.foldl (fun bucket c => addToBucket bucket (pathToKey c.path) c) bucket) ↔
        cur ∈ bucketCurrencies kq bucket ∨
          ∃ c ∈ convs, pathToKey c.path = kq ∧ c.currency = some cur ∧ cur ≠ "" := by
  induction convs with
  | nil => intro bucket kq cur; simp
  | cons c cs ih =>
      intro bucket kq cur
      rw [List.foldl_cons, ih, bucketCurrencies_addToBucket]
      constructor
      · rintro ((hb | ⟨hk, hc, hne⟩) | ⟨c', hc', hp⟩)
        · exact Or.inl hb
        · exact Or.inr ⟨c, List.mem_cons_self _ _, hk, hc, hne⟩
        · exact Or.inr ⟨c', List.mem_cons_of_mem _ hc', hp⟩
      · rintro (hb | ⟨c', hc', hp⟩)
        · exact Or.inl (Or.inl hb)
        · rcases List.mem_cons.mp hc' with rfl | h2
          · exact Or.inl (Or.inr hp)
          · exact Or.inr ⟨c', h2, hp⟩

/-- Key presence after folding a conversion list into a bucket. -/
theorem isSome_findAgg_fold (convs : List ConversionRecord) :
    ∀ (bucket : List (String × PathAgg)) (kq : String),
      (findAgg kq
          (convs.foldl (fun bucket c => addToBucket bucket (pathToKey c.path) c)
            bucket)).isSome =
        ((findAgg kq bucket).isSome || convs.any (fun c => pathToKey c.path == kq)) := by
  induction convs with
  | nil => intro bucket kq; simp
  | cons c cs ih =>
      intro bucket kq
      rw [List.foldl_cons, ih, isSome_findAgg_addToBucket, List.any_cons, Bool.or_assoc]

/-- Claim C2: the aggregated table is a pure function of the multiset of
`(path, value, currency)` triples — for any permutation of the conversion
list, each path key is present iff it was present, and stores the same
conversions count, the same total value, and the same currency set. -/
theorem aggregation_perm_invariant (convs convs' : List ConversionRecord)
    (hp : convs.Perm convs') (key cur : String) :
    (findAgg key (accumulatePaths convs)).isSome =
        (findAgg key (accumulatePaths convs')).isSome ∧
      bucketConversions key (accumulatePaths convs) =
        bucketConversions key (accumulatePaths convs') ∧
      bucketValue key (accumulatePaths convs) =
        bucketValue key (accumulatePaths convs') ∧
      (cur ∈ bucketCurrencies key (accumulatePaths convs) ↔
        cur ∈ bucketCurrencies key (accumulatePaths convs')) := by
  refine ⟨?_, ?_, ?_, ?_⟩
  · unfold accumulatePaths
    rw [isSome_findAgg_fold, isSome_findAgg_fold]
    rw [Bool.eq_iff_iff]
    simp only [Bool.or_eq_true, List.any_eq_true]
    constructor
    · rintro (h | ⟨c, hc, hpc⟩)
      · exact Or.inl h
      · exact Or.inr ⟨c, hp.mem_iff.mp hc, hpc⟩
    · rintro (h | ⟨c, hc, hpc⟩)
      · exact Or.inl h
      · exact Or.inr ⟨c, hp.mem_iff.mpr hc, hpc⟩
  · unfold accumulatePaths
    rw [bucketConversions_fold, bucketConversions_fold, hp.countP_eq]
  · unfold accumulatePaths
    rw [bucketValue_fold, bucketValue_fold,
      ((hp.filter (fun c => pathToKey c.path == key)).map ConversionRecord.value).sum_eq]
  · unfold accumulatePaths
    rw [bucketCurrencies_fold, bucketCurrencies_fold]
    constructor
    · rintro (h | ⟨c, hc, hpc⟩)
      · exact Or.inl h
      · exact Or.inr ⟨c, hp.mem_iff.mp hc, hpc⟩
    · rintro (h | ⟨c, hc, hpc⟩)
      · exact Or.inl h
      · exact Or.inr ⟨c, hp.mem_iff.mpr hc, hpc⟩

/-- Witness for C2 at a concrete input. -/
theorem aggregation_perm_invariant_witness :
    ([(⟨["A"], 1, some "USD"⟩ : ConversionRecord), ⟨["B"], 2, none⟩].Perm
        [(⟨["B"], 2, none⟩ : ConversionRecord), ⟨["A"], 1, some "USD"⟩]) ∧
      ((findAgg "A" (accumulatePaths
            [(⟨["A"], 1, some "USD"⟩ : ConversionRecord), ⟨["B"], 2, none⟩])).isSome =
          (findAgg "A" (accumulatePaths
            [(⟨["B"], 2, none⟩ : ConversionRecord), ⟨["A"], 1, some "USD"⟩])).isSome ∧
        bucketConversions "A" (accumulatePaths
            [(⟨["A"], 1, some "USD"⟩ : ConversionRecord), ⟨["B"], 2, none⟩]) =
          bucketConversions "A" (accumulatePaths
            [(⟨["B"], 2, none⟩ : ConversionRecord), ⟨["A"], 1, some "USD"⟩]) ∧
        bucketValue "A" (accumulatePaths
            [(⟨["A"], 1, some "USD"⟩ : ConversionRecord), ⟨["B"], 2, none⟩]) =
          bucketValue "A" (accumulatePaths
            [(⟨["B"], 2, none⟩ : ConversionRecord), ⟨["A"], 1, some "USD"⟩]) ∧
        ("USD" ∈ bucketCurrencies "A" (accumulatePaths
            [(⟨["A"], 1, some "USD"⟩ : ConversionRecord), ⟨["B"], 2, none⟩]) ↔
          "USD" ∈ bucketCurrencies "A" (accumulatePaths
            [(⟨["B"], 2, none⟩ : ConversionRecord), ⟨["A"], 1, some "USD"⟩]))) :=
  ⟨by decide, aggregation_perm_invariant _ _ (by decide) "A" "USD"⟩
